import Mathlib

/-!
Verification of the Connect4 MCTS engine (`Connect4.py`).

The Python program is shallowly embedded below.  A board is a list of 6
rows of 7 cells; a cell holds `' '`, `'X'` or `'O'`, modelled by the
inductive type `Cell`.  Player values in the Python code are the same
characters, so the player type is `Cell` as well (only `X`/`O` occur).
Mutable tree nodes are modelled as an inductive tree; the parent pointer
is implicit (a node's parent is the node holding it in its child list),
and `backpropagate` is modelled on the ancestor chain.  Scores are real
numbers (Python floats/ints); visit counts are naturals.
-/

namespace Connect4

/-- A board cell: `' '`, `'X'` or `'O'` in the Python source. -/
inductive Cell : Type where
  | E : Cell
  | X : Cell
  | O : Cell
deriving DecidableEq, Repr, Inhabited

/-- The next player computation `'O' if player == 'X' else 'X'` used
throughout the source. -/
def opp (p : Cell) : Cell := if p = Cell.X then Cell.O else Cell.X

/-- A board row (7 cells in well-formed boards). -/
abbrev Row := List Cell

/-- The board: 6 rows of 7 cells in well-formed boards. -/
abbrev Board := List Row

/-- Cell access `self.board[r][c]`.  Out-of-range access raises
`IndexError` in Python; the default `Cell.E` here is only ever relied on
for in-range indices of well-formed boards. -/
def cellAt (b : Board) (r c : ℕ) : Cell := (b.getD r []).getD c Cell.E

/-- Functional update of one cell, `self.board[r][c] = v` (the Python
code mutates a fresh copy). -/
def setCell (b : Board) (r c : ℕ) (v : Cell) : Board :=
  b.set r ((b.getD r []).set c v)

/-- The Python `Connect4` object: the 6×7 grid and the `player` field. -/
structure GameState : Type where
  board : Board
  player : Cell
deriving DecidableEq, Repr

/-- Well-formedness: the grid really is 6 rows of 7 cells, as every board
constructed by the Python class is. -/
def WF (s : GameState) : Prop :=
  s.board.length = 6 ∧ ∀ row ∈ s.board, row.length = 7

instance : DecidablePred WF := fun s => by
  unfold WF; infer_instance

/-- The constructor `Connect4.__init__`: the empty board, `'X'` to move. -/
def initState : GameState :=
  ⟨List.replicate 6 (List.replicate 7 Cell.E), Cell.X⟩

instance : Inhabited GameState := ⟨initState⟩

/-- The method `get_possible_moves`: the columns whose top cell is blank, in
ascending order (`[col for col in range(7) if self.board[0][col] == ' ']`). -/
def get_possible_moves (s : GameState) : List ℕ :=
  (List.range 7).filter (fun col => cellAt s.board 0 col = Cell.E)

/-- The row-scanning loop of `make_move`: try rows 5,4,…,0 and drop the
mark into the first blank cell found; if no row of the column is blank the
board is returned unchanged (the Python loop simply never `break`s). -/
def placeLoop (rows : List ℕ) (b : Board) (col : ℕ) (p : Cell) : Board :=
  match rows with
  | [] => b
  | r :: rest =>
      if cellAt b r col = Cell.E then setCell b r col p
      else placeLoop rest b col p

/-- The in-range core of `make_move`: drop `p` into column `col` (rows
scanned 5 down to 0) and hand the turn to the opponent.  All internal
callers (`expand`, `simulate`) pass columns drawn from
`get_possible_moves`, which are `< 7`, so for them `make_move` always
succeeds and equals `place`. -/
def place (s : GameState) (col : ℕ) (p : Cell) : GameState :=
  ⟨placeLoop [5, 4, 3, 2, 1, 0] s.board col p, opp p⟩

/-- The method `make_move(col, player)`: on a well-formed board a column index `≥ 7`
makes the first `board[row][col]` access raise `IndexError` (modelled as
`none`); otherwise the mark is dropped (silently nowhere if the column is
full) and the stored player flipped.  No `IllegalMoveError` exists in the
source. -/
def make_move (s : GameState) (col : ℕ) (p : Cell) : Option GameState :=
  if col < 7 then some (place s col p) else none

/-- All 4-cell windows scanned by `is_terminal`/`evaluate`, in the exact
scan order of the source: horizontal (rows 0–5, start cols 0–3), vertical
(start rows 0–2, cols 0–6), positive-slope diagonal (start rows 0–2,
start cols 0–3), negative-slope diagonal (start rows 0–2, start cols
3–6). -/
def hWindows : List (List (ℕ × ℕ)) :=
  (List.range 6).flatMap fun r =>
    (List.range 4).map fun c => (List.range 4).map fun i => (r, c + i)

def vWindows : List (List (ℕ × ℕ)) :=
  (List.range 3).flatMap fun r =>
    (List.range 7).map fun c => (List.range 4).map fun i => (r + i, c)

def dPosWindows : List (List (ℕ × ℕ)) :=
  (List.range 3).flatMap fun r =>
    (List.range 4).map fun c => (List.range 4).map fun i => (r + i, c + i)

def dNegWindows : List (List (ℕ × ℕ)) :=
  (List.range 3).flatMap fun r =>
    (List.range' 3 4).map fun c => (List.range 4).map fun i => (r + i, c - i)

def allWindows : List (List (ℕ × ℕ)) :=
  hWindows ++ vWindows ++ dPosWindows ++ dNegWindows

/-- One window test of the source:
`board[r][c] != ' ' and all(board cells of the window equal board[r][c])`. -/
def windowHit (b : Board) (w : List (ℕ × ℕ)) : Bool :=
  match w with
  | [] => false
  | q :: _ =>
      decide (cellAt b q.1 q.2 ≠ Cell.E) &&
        w.all fun q' => decide (cellAt b q'.1 q'.2 = cellAt b q.1 q.2)

/-- The method `is_terminal`: some scanned window is a win, or the top row is full
(the tie check `all(self.board[0][col] != ' ' for col in range(7))`). -/
def is_terminal (s : GameState) : Bool :=
  allWindows.any (windowHit s.board) ||
    (List.range 7).all fun col => decide (cellAt s.board 0 col ≠ Cell.E)

/-- The method `evaluate`: the scans run in the same order as `is_terminal` and the
function returns `1`/`-1` according to the first winning window found
(`1 if board[row][col] == 'X' else -1`), `0` when no scan matches. -/
def evaluate (s : GameState) : Int :=
  match allWindows.find? (windowHit s.board) with
  | some w =>
      if cellAt s.board (w.headD (0, 0)).1 (w.headD (0, 0)).2 = Cell.X then 1 else -1
  | none => 0

/-- Number of blank cells on the board (used only to bound the rollout
loop's fuel: each rollout move fills one blank cell). -/
def countBlank (b : Board) : ℕ :=
  (b.map fun row => (row.filter (fun c => c = Cell.E)).length).sum

/-- Spec-side predicate: the board contains four contiguously aligned
cells holding mark `m`, horizontally, vertically, or along either
diagonal, with the 4-cell window staying on the 6×7 board. -/
def hasFour (b : Board) (m : Cell) : Prop :=
  (∃ r < 6, ∃ c < 4, ∀ i < 4, cellAt b r (c + i) = m) ∨
  (∃ r < 3, ∃ c < 7, ∀ i < 4, cellAt b (r + i) c = m) ∨
  (∃ r < 3, ∃ c < 4, ∀ i < 4, cellAt b (r + i) (c + i) = m) ∨
  (∃ r < 3, ∃ c < 7, 3 ≤ c ∧ ∀ i < 4, cellAt b (r + i) (c - i) = m)

instance (b : Board) (m : Cell) : Decidable (hasFour b m) := by
  unfold hasFour; infer_instance

/-- Spec-side predicate: every cell of the 6×7 grid is non-blank. -/
def boardFull (b : Board) : Prop :=
  ∀ r < 6, ∀ c < 7, cellAt b r c ≠ Cell.E

instance (b : Board) : Decidable (boardFull b) := by
  unfold boardFull; infer_instance

/-- The MCTS tree node (`class Node`): state, player to move, ordered
children, visit count, accumulated score.  The Python parent pointer is
represented implicitly: a node's parent is the unique node holding it in
its child list, and the upward walk of `backpropagate` is modelled on the
ancestor chain (see `backpropagate` below) and inlined in the recursive
search iteration (`iter`). -/
inductive Node : Type where
  | mk (state : GameState) (player : Cell) (children : List Node)
      (visits : ℕ) (score : ℝ) : Node

def Node.state : Node → GameState
  | .mk st _ _ _ _ => st

def Node.player : Node → Cell
  | .mk _ pl _ _ _ => pl

def Node.children : Node → List Node
  | .mk _ _ cs _ _ => cs

def Node.visits : Node → ℕ
  | .mk _ _ _ v _ => v

def Node.score : Node → ℝ
  | .mk _ _ _ _ sc => sc

instance : Inhabited Node := ⟨.mk initState Cell.X [] 0 0⟩

/-- The sum `sum(child.visits for child in self.children)`. -/
def totalVisits (cs : List Node) : ℕ := (cs.map Node.visits).sum

/-- Index of the first element with maximal key — the semantics of
Python's `max(iterable, key=f)`, which scans left to right and replaces
the current best only on a strictly greater key. -/
def idxOfMax {α β : Type} [LinearOrder β] (f : α → β) : List α → ℕ
  | [] => 0
  | [_] => 0
  | x :: y :: ys =>
      let j := idxOfMax f (y :: ys)
      if f x < f ((y :: ys).getD j y) then j + 1 else 0

/-- Python `max(l, key=f)`: `none` models the `ValueError` raised on an
empty sequence. -/
def pyMax {α β : Type} [LinearOrder β] [Inhabited α] (f : α → β)
    (l : List α) : Option α :=
  match l with
  | [] => none
  | _ :: _ => some (l.getD (idxOfMax f l) default)

/-- The UCB key of `select_child`:
`node.score / (node.visits + 1e-8) + sqrt(log_exploration_value / (node.visits + 1e-8))`
with `log_exploration_value = log(total_visits + 1e-8) if total_visits else 0`. -/
noncomputable def ucbScore (cs : List Node) (c : Node) : ℝ :=
  c.score / ((c.visits : ℝ) + 1e-8) +
    Real.sqrt
      ((if totalVisits cs ≠ 0 then Real.log ((totalVisits cs : ℝ) + 1e-8) else 0)
        / ((c.visits : ℝ) + 1e-8))

/-- The method `select_child`: `max(self.children, key=ucb_score)`. -/
noncomputable def Node.select_child (n : Node) : Option Node :=
  pyMax (ucbScore n.children) n.children

/-- The child-construction loop of `expand`: one fresh child per legal
move, appended to the existing child list in `get_possible_moves`
order.  Columns from `get_possible_moves` are `< 7`, so `make_move`
succeeds and equals `place` on them. -/
def expandList (st : GameState) (pl : Cell) (cs : List Node) : List Node :=
  cs ++ (get_possible_moves st).map fun m =>
    Node.mk (place st m pl) (opp pl) [] 0 0

/-- The method `expand`: populates and returns the full child collection. -/
def Node.expand (n : Node) : List Node :=
  expandList n.state n.player n.children

/-- The stream of rollout random choices: `random.choice(possible_moves)`
picks `possible_moves[x % len]` for the next stream element `x`. -/
abbrev Rng := List ℕ

def nextRand : Rng → ℕ × Rng
  | [] => (0, [])
  | x :: xs => (x, xs)

/-- One update of `backpropagate` on a single node's statistics:
`self.visits += 1; self.score += score`. -/
def bump : Node → ℝ → Node
  | .mk st pl cs v sc, s => .mk st pl cs (v + 1) (sc + s)

/-- The method `backpropagate(score)` along the chain `[node, parent, grandparent, …]`:
each link adds 1 to its visit count, the score is added with alternating
sign as the recursion passes `-score` to the parent. -/
def backpropagate (s : ℝ) : List Node → List Node
  | [] => []
  | n :: rest => bump n s :: backpropagate (-s) rest

/-- The `while not state.is_terminal()` rollout loop of `simulate`, with
fuel: every iteration drops a mark into a column with a blank top cell,
so `countBlank` of the start state bounds the number of iterations on the
6×7 boards the program builds (on fuel exhaustion the current state is
evaluated, which coincides with the Python loop for those boards). -/
def simLoop : ℕ → GameState → Cell → Rng → Int × Rng
  | 0, s, _, r => (evaluate s, r)
  | fuel + 1, s, p, r =>
      if is_terminal s then (evaluate s, r)
      else
        let ms := get_possible_moves s
        let (x, r') := nextRand r
        let m := ms.getD (x % ms.length) 0
        simLoop fuel (place s m p) (opp p) r'

/-- The method `simulate`: random playout from a copy of the held state, returning
`evaluate()` of the reached terminal state. -/
def Node.simulate (n : Node) (r : Rng) : Int × Rng :=
  simLoop (countBlank n.state.board) n.state n.player r

theorem getD_mem {α : Type} (d : α) :
    ∀ (l : List α) (i : ℕ), i < l.length → l.getD i d ∈ l
  | x :: xs, 0, _ => by simp
  | x :: xs, i + 1, h => by
      simpa using Or.inr (getD_mem d xs i (by simpa using h))

theorem idxOfMax_lt {α β : Type} [LinearOrder β] (f : α → β) :
    ∀ l : List α, l ≠ [] → idxOfMax f l < l.length
  | [x], _ => by simp [idxOfMax]
  | x :: y :: ys, _ => by
      have ih := idxOfMax_lt f (y :: ys) (by simp)
      simp only [idxOfMax, List.length_cons] at ih ⊢
      split <;> omega

section
open Classical

/-- One iteration of the `mcts` loop, as a recursive transformation of
the subtree rooted at the current node: while the node has children and
is non-terminal, descend through `select_child`; at the reached node,
expand (continuing with the first produced child) unless terminal;
simulate; and apply the `backpropagate` updates on the way back up, the
score sign flipping at each level.  The returned real is the signed score
that `backpropagate` added at this node (its negation is added at the
parent).  `none` models the `IndexError` of `self.expand()[0]` on an
empty expansion, which in fact never occurs (`iter_runs` below). -/
noncomputable def iter : Node → Rng → Option (Node × ℝ × Rng)
  | .mk st pl cs v sc, r =>
    if h : cs ≠ [] ∧ ¬ is_terminal st then
      match iter (cs.getD (idxOfMax (ucbScore cs) cs) default) r with
      | none => none
      | some (c', s, r') =>
          some (.mk st pl (cs.set (idxOfMax (ucbScore cs) cs) c') (v + 1)
            (sc + -s), -s, r')
    else if is_terminal st then
      let (z, r') := Node.simulate (.mk st pl cs v sc) r
      some (.mk st pl cs (v + 1) (sc + (z : ℝ)), (z : ℝ), r')
    else
      match expandList st pl cs with
      | [] => none
      | c :: rest =>
          let (z, r') := Node.simulate c r
          some (.mk st pl (bump c (z : ℝ) :: rest) (v + 1)
            (sc + -(z : ℝ)), -(z : ℝ), r')
termination_by n _ => sizeOf n
decreasing_by
  have h1 : cs.getD (idxOfMax (ucbScore cs) cs) default ∈ cs :=
    getD_mem _ _ _ (idxOfMax_lt _ _ h.1)
  have h2 := List.sizeOf_lt_of_mem h1
  simp only [Node.mk.sizeOf_spec]
  omega

end

/-- The `for _ in range(iterations)` loop of `mcts`, threading the
updated tree and the random stream. -/
noncomputable def mctsLoop : Node → ℕ → Rng → Option (Node × Rng)
  | n, 0, r => some (n, r)
  | n, k + 1, r =>
      match iter n r with
      | none => none
      | some (n', _, r') => mctsLoop n' k r'

/-- The function `mcts(root, iterations)`: run the loop, then
`max(root.children, key=lambda node: node.visits)` (`none` models the
`ValueError` raised by `max` on an empty child list). -/
noncomputable def mcts (root : Node) (iterations : ℕ) (r : Rng) :
    Option Node :=
  match mctsLoop root iterations r with
  | none => none
  | some (n', _) => pyMax Node.visits n'.children

/-! ### List helper lemmas -/

theorem getD_irrel {α : Type} (d d' : α) :
    ∀ (l : List α) (i : ℕ), i < l.length → l.getD i d = l.getD i d'
  | _ :: _, 0, _ => rfl
  | _ :: xs, i + 1, h => getD_irrel d d' xs i (by simpa using h)

theorem getD_set_ne {α : Type} (x d : α) :
    ∀ (l : List α) (i j : ℕ), j ≠ i → (l.set i x).getD j d = l.getD j d
  | [], _, _, _ => by simp
  | _ :: _, 0, 0, h => absurd rfl h
  | _ :: _, 0, _ + 1, _ => rfl
  | _ :: _, _ + 1, 0, _ => rfl
  | _ :: xs, i + 1, j + 1, h =>
      getD_set_ne x d xs i j (fun hji => h (congrArg Nat.succ hji))

theorem getD_set_self {α : Type} (x d : α) :
    ∀ (l : List α) (i : ℕ), i < l.length → (l.set i x).getD i d = x
  | _ :: _, 0, _ => rfl
  | _ :: xs, i + 1, h => getD_set_self x d xs i (by simpa using h)

theorem set_getD_self {α : Type} (d : α) :
    ∀ (l : List α) (i : ℕ), l.set i (l.getD i d) = l
  | [], _ => rfl
  | _ :: _, 0 => rfl
  | x :: xs, i + 1 => congrArg (x :: ·) (set_getD_self d xs i)

theorem getD_map {α β : Type} (f : α → β) (d : α) :
    ∀ (l : List α) (i : ℕ), i < l.length → (l.map f).getD i (f d) = f (l.getD i d)
  | _ :: _, 0, _ => rfl
  | _ :: xs, i + 1, h => getD_map f d xs i (by simpa using h)

/-! ### First-argmax characterization (`max(l, key=f)` semantics) -/

theorem idxOfMax_le {α β : Type} [LinearOrder β] (f : α → β) (d : α) :
    ∀ (l : List α) (j : ℕ), j < l.length →
      f (l.getD j d) ≤ f (l.getD (idxOfMax f l) d)
  | [x], 0, _ => le_refl _
  | x :: y :: ys, j, hj => by
      have hlt := idxOfMax_lt f (y :: ys) (by simp)
      have ih := fun j hj => idxOfMax_le f d (y :: ys) j hj
      have hyd : (y :: ys).getD (idxOfMax f (y :: ys)) y
          = (y :: ys).getD (idxOfMax f (y :: ys)) d := getD_irrel y d _ _ hlt
      simp only [idxOfMax]
      split
      · rename_i hbr
        rw [hyd] at hbr
        rw [List.getD_cons_succ]
        cases j with
        | zero => rw [List.getD_cons_zero]; exact le_of_lt hbr
        | succ j =>
            rw [List.getD_cons_succ]
            exact ih j (by simpa using hj)
      · rename_i hbr
        rw [hyd] at hbr
        push_neg at hbr
        rw [List.getD_cons_zero]
        cases j with
        | zero => rw [List.getD_cons_zero]
        | succ j =>
            rw [List.getD_cons_succ]
            exact le_trans (ih j (by simpa using hj)) hbr

theorem idxOfMax_first {α β : Type} [LinearOrder β] (f : α → β) (d : α) :
    ∀ (l : List α) (j : ℕ), j < idxOfMax f l →
      f (l.getD j d) < f (l.getD (idxOfMax f l) d)
  | [_], j, hj => by simp [idxOfMax] at hj
  | x :: y :: ys, j, hj => by
      have hlt := idxOfMax_lt f (y :: ys) (by simp)
      have ih := fun j hj => idxOfMax_first f d (y :: ys) j hj
      have hyd : (y :: ys).getD (idxOfMax f (y :: ys)) y
          = (y :: ys).getD (idxOfMax f (y :: ys)) d := getD_irrel y d _ _ hlt
      simp only [idxOfMax] at hj ⊢
      split at hj
      · rename_i hbr
        have hbrd := hbr
        rw [hyd] at hbrd
        rw [if_pos hbr, List.getD_cons_succ]
        cases j with
        | zero => rw [List.getD_cons_zero]; exact hbrd
        | succ j =>
            rw [List.getD_cons_succ]
            exact ih j (by omega)
      · omega

theorem pyMax_eq {α β : Type} [LinearOrder β] [Inhabited α] (f : α → β)
    (l : List α) (h : l ≠ []) :
    pyMax f l = some (l.getD (idxOfMax f l) default) := by
  cases l with
  | nil => exact absurd rfl h
  | cons x xs => rfl

/-! ### Node and tree-update helper lemmas -/

theorem bump_state (c : Node) (z : ℝ) : (bump c z).state = c.state := by
  cases c; rfl

theorem bump_player (c : Node) (z : ℝ) : (bump c z).player = c.player := by
  cases c; rfl

theorem bump_children (c : Node) (z : ℝ) :
    (bump c z).children = c.children := by
  cases c; rfl

theorem bump_visits (c : Node) (z : ℝ) : (bump c z).visits = c.visits + 1 := by
  cases c; rfl

theorem bump_score (c : Node) (z : ℝ) : (bump c z).score = c.score + z := by
  cases c; rfl

theorem totalVisits_set :
    ∀ (cs : List Node) (i : ℕ) (c' : Node), i < cs.length →
      totalVisits (cs.set i c') + (cs.getD i default).visits
        = totalVisits cs + c'.visits
  | c :: cs, 0, c', _ => by
      simp only [List.set_cons_zero, totalVisits, List.map_cons, List.sum_cons,
        List.getD_cons_zero]
      omega
  | c :: cs, i + 1, c', h => by
      have ih := totalVisits_set cs i c' (by simpa using h)
      simp only [List.set_cons_succ, totalVisits, List.map_cons, List.sum_cons,
        List.getD_cons_succ] at ih ⊢
      omega

theorem map_set_eq {α β : Type} (f : α → β) (d : α) :
    ∀ (l : List α) (i : ℕ) (x : α), i < l.length → f x = f (l.getD i d) →
      (l.set i x).map f = l.map f
  | a :: l, 0, x, _, hx => by
      rw [List.getD_cons_zero] at hx
      simp [hx]
  | a :: l, i + 1, x, h, hx => by
      rw [List.getD_cons_succ] at hx
      simp only [List.set_cons_succ, List.map_cons]
      exact congrArg _ (map_set_eq f d l i x (by simpa using h) hx)

theorem totalVisits_cons (c : Node) (cs : List Node) :
    totalVisits (c :: cs) = c.visits + totalVisits cs := by
  simp [totalVisits]

theorem totalVisits_tmpl (l : List ℕ) (st : GameState) (pl : Cell) :
    totalVisits (l.map fun m => Node.mk (place st m pl) (opp pl) [] 0 0) = 0 := by
  induction l with
  | nil => rfl
  | cons a l ih =>
      rw [List.map_cons, totalVisits_cons, ih]
      rfl

/-- A non-terminal position always has a legal move: otherwise the top
row is full and the tie check of `is_terminal` fires. -/
theorem moves_ne_nil (s : GameState) (h : is_terminal s = false) :
    get_possible_moves s ≠ [] := by
  intro hnil
  rw [get_possible_moves, List.filter_eq_nil_iff] at hnil
  have htie : ((List.range 7).all fun col =>
      decide (cellAt s.board 0 col ≠ Cell.E)) = true := by
    rw [List.all_eq_true]
    intro col hcol
    have := hnil col hcol
    simpa using this
  rw [is_terminal, htie] at h
  simp at h

/-- Master lemma on one search iteration: it always succeeds, leaves the
node's state and player untouched, adds one visit to the node, leaves the
children of a terminal node untouched, adds exactly one visit in total to
the children of a non-terminal node (and leaves it with at least one
child), never changes the states of existing children, and populates a
childless non-terminal node's children with exactly the legal moves'
successor states, in `get_possible_moves` order. -/
theorem iter_runs : ∀ (n : Node) (r : Rng), ∃ n' s r',
    iter n r = some (n', s, r') ∧
    n'.state = n.state ∧
    n'.player = n.player ∧
    n'.visits = n.visits + 1 ∧
    (is_terminal n.state = true → n'.children = n.children) ∧
    (is_terminal n.state = false →
      totalVisits n'.children = totalVisits n.children + 1 ∧ n'.children ≠ []) ∧
    (n.children ≠ [] → n'.children.map Node.state = n.children.map Node.state) ∧
    (n.children = [] → is_terminal n.state = false →
      n'.children.map Node.state
        = (get_possible_moves n.state).map fun m => place n.state m n.player)
  | .mk st pl cs v sc, r => by
      by_cases hc : cs ≠ [] ∧ ¬ is_terminal st
      · obtain ⟨hcs, hterm⟩ := hc
        have hterm' : is_terminal st = false := by simpa using hterm
        have hidx : idxOfMax (ucbScore cs) cs < cs.length := idxOfMax_lt _ _ hcs
        obtain ⟨c', s, r', hit, hcst, _, hcv, _, _, _, _⟩ :=
          iter_runs (cs.getD (idxOfMax (ucbScore cs) cs) default) r
        refine ⟨.mk st pl (cs.set (idxOfMax (ucbScore cs) cs) c') (v + 1)
          (sc + -s), -s, r', ?_, rfl, rfl, rfl, ?_, ?_, ?_, ?_⟩
        · rw [iter, dif_pos ⟨hcs, hterm⟩, hit]
        · intro ht
          simp only [Node.state] at ht
          rw [ht] at hterm'
          cases hterm'
        · intro _
          simp only [Node.children]
          constructor
          · have hset := totalVisits_set cs (idxOfMax (ucbScore cs) cs) c' hidx
            omega
          · have : (cs.set (idxOfMax (ucbScore cs) cs) c').length = cs.length :=
              List.length_set ..
            intro hnil
            rw [hnil] at this
            exact hcs (List.length_eq_zero.mp this.symm)
        · intro _
          simp only [Node.children]
          exact map_set_eq Node.state default cs _ c' hidx hcst
        · intro hnil
          exact absurd hnil hcs
      · by_cases hterm : is_terminal st = true
        · have hnc : ¬(cs ≠ [] ∧ ¬ is_terminal st) := by simp [hterm]
          refine ⟨.mk st pl cs (v + 1)
            (sc + ((Node.simulate (.mk st pl cs v sc) r).1 : ℝ)),
            ((Node.simulate (.mk st pl cs v sc) r).1 : ℝ),
            (Node.simulate (.mk st pl cs v sc) r).2, ?_, rfl, rfl, rfl,
            fun _ => rfl, ?_, fun _ => rfl, ?_⟩
          · rw [iter, dif_neg hnc, if_pos hterm]
          · intro hf
            simp only [Node.state] at hf
            rw [hterm] at hf
            cases hf
          · intro _ hf
            simp only [Node.state] at hf
            rw [hterm] at hf
            cases hf
        · have hcs : cs = [] := by
            by_contra hne
            exact hc ⟨hne, by simp [hterm]⟩
          have hterm' : is_terminal st = false := by
            simpa using hterm
          subst hcs
          have hmv : get_possible_moves st ≠ [] := moves_ne_nil st hterm'
          cases hm : get_possible_moves st with
          | nil => exact absurd hm hmv
          | cons m ms =>
            have hnc : ¬(([] : List Node) ≠ [] ∧ ¬ is_terminal st) := by simp
            have he : expandList st pl []
                = Node.mk (place st m pl) (opp pl) [] 0 0
                  :: ms.map (fun m => Node.mk (place st m pl) (opp pl) [] 0 0) := by
              simp [expandList, hm]
            refine ⟨.mk st pl
              (bump (Node.mk (place st m pl) (opp pl) [] 0 0)
                  ((Node.simulate (Node.mk (place st m pl) (opp pl) [] 0 0) r).1 : ℝ)
                :: ms.map (fun m => Node.mk (place st m pl) (opp pl) [] 0 0))
              (v + 1)
              (sc + -((Node.simulate (Node.mk (place st m pl) (opp pl) [] 0 0) r).1 : ℝ)),
              -((Node.simulate (Node.mk (place st m pl) (opp pl) [] 0 0) r).1 : ℝ),
              (Node.simulate (Node.mk (place st m pl) (opp pl) [] 0 0) r).2,
              ?_, rfl, rfl, rfl, ?_, ?_, ?_, ?_⟩
            · rw [iter, dif_neg hnc, if_neg hterm, he]
            · intro hf
              simp only [Node.state] at hf
              rw [hterm'] at hf
              cases hf
            · intro _
              simp only [Node.children]
              constructor
              · rw [totalVisits_cons, bump_visits, totalVisits_tmpl ms st pl]
                rfl
              · simp
            · intro hf
              exact absurd rfl hf
            · intro _ _
              simp only [Node.children, Node.state, List.map_cons, List.map_map,
                bump_state]
              rw [hm, List.map_cons]
              rfl
termination_by n _ => sizeOf n
decreasing_by
  have h1 : cs.getD (idxOfMax (ucbScore cs) cs) default ∈ cs :=
    getD_mem _ _ _ (idxOfMax_lt _ _ hcs)
  have h2 := List.sizeOf_lt_of_mem h1
  simp only [Node.mk.sizeOf_spec]
  omega

/-- Master lemma on the iteration loop from a non-terminal root: it
always succeeds, preserves the root's state, player and the states of its
children, adds exactly `N` visits in total to the root's children, and —
as soon as one iteration has run — a fresh root's children are exactly
the legal moves' successor states in `get_possible_moves` order. -/
theorem mctsLoop_runs :
    ∀ (N : ℕ) (n : Node) (r : Rng), is_terminal n.state = false →
    ∃ n' r', mctsLoop n N r = some (n', r') ∧
      n'.state = n.state ∧
      n'.player = n.player ∧
      totalVisits n'.children = totalVisits n.children + N ∧
      ((n.children ≠ [] ∨ 1 ≤ N) → n'.children ≠ []) ∧
      (n.children ≠ [] → n'.children.map Node.state = n.children.map Node.state) ∧
      (1 ≤ N → n.children = [] →
        n'.children.map Node.state
          = (get_possible_moves n.state).map fun m => place n.state m n.player)
  | 0, n, r, _ =>
      ⟨n, r, rfl, rfl, rfl, rfl,
        fun h => h.elim id (fun h1 => absurd h1 (by omega)),
        fun _ => rfl, fun h1 => absurd h1 (by omega)⟩
  | N + 1, n, r, hterm => by
      obtain ⟨n1, s1, r1, hit, hst1, hpl1, _, _, hnt, hpres, hexp⟩ :=
        iter_runs n r
      have hterm1 : is_terminal n1.state = false := by rw [hst1]; exact hterm
      obtain ⟨htv1, hne1⟩ := hnt hterm
      obtain ⟨n', r', hloop, hst', hpl', htv', hne', hpres', _⟩ :=
        mctsLoop_runs N n1 r1 hterm1
      refine ⟨n', r', ?_, hst'.trans hst1, hpl'.trans hpl1, ?_, ?_, ?_, ?_⟩
      · rw [mctsLoop, hit]
        exact hloop
      · rw [htv', htv1]
        omega
      · intro _
        exact hne' (Or.inl hne1)
      · intro hne
        rw [hpres' hne1]
        exact hpres hne
      · intro _ hnil
        rw [hpres' hne1, hexp hnil hterm]

/-- On a terminal root the loop only repeatedly simulates the root
itself: state and children are untouched, the root gains `N` visits. -/
theorem mctsLoop_term :
    ∀ (N : ℕ) (n : Node) (r : Rng), is_terminal n.state = true →
    ∃ n' r', mctsLoop n N r = some (n', r') ∧
      n'.state = n.state ∧ n'.children = n.children ∧
      n'.visits = n.visits + N
  | 0, n, r, _ => ⟨n, r, rfl, rfl, rfl, rfl⟩
  | N + 1, n, r, hterm => by
      obtain ⟨n1, s1, r1, hit, hst1, _, hv1, hch1, _, _, _⟩ := iter_runs n r
      have hterm1 : is_terminal n1.state = true := by rw [hst1]; exact hterm
      obtain ⟨n', r', hloop, hst', hch', hv'⟩ :=
        mctsLoop_term N n1 r1 hterm1
      refine ⟨n', r', ?_, hst'.trans hst1, ?_, ?_⟩
      · rw [mctsLoop, hit]
        exact hloop
      · rw [hch', hch1 hterm]
      · rw [hv', hv1]
        omega

/-! ### Board-update lemmas and the `place` characterization -/

theorem set_oob {α : Type} (x : α) :
    ∀ (l : List α) (i : ℕ), l.length ≤ i → l.set i x = l
  | [], _, _ => rfl
  | a :: l, 0, h => absurd h (by simp)
  | a :: l, i + 1, h => congrArg (a :: ·) (set_oob x l i (by simpa using h))

theorem cellAt_setCell_ne (b : Board) (r c : ℕ) (v : Cell) (r' c' : ℕ)
    (h : r' ≠ r ∨ c' ≠ c) :
    cellAt (setCell b r c v) r' c' = cellAt b r' c' := by
  rcases h with hr | hc
  · unfold cellAt setCell
    rw [getD_set_ne _ _ _ _ _ hr]
  · unfold cellAt setCell
    by_cases hrr : r' = r
    · subst hrr
      by_cases hrl : r' < b.length
      · rw [getD_set_self _ _ _ _ hrl, getD_set_ne _ _ _ _ _ hc]
      · rw [set_oob _ _ _ (le_of_not_lt hrl)]
    · rw [getD_set_ne _ _ _ _ _ hrr]

theorem cellAt_setCell_self (b : Board) (r c : ℕ) (v : Cell)
    (hr : r < b.length) (hc : c < (b.getD r []).length) :
    cellAt (setCell b r c v) r c = v := by
  unfold cellAt setCell
  rw [getD_set_self _ _ _ _ hr, getD_set_self _ _ _ _ hc]

theorem mem_possible_moves (s : GameState) (col : ℕ) :
    col ∈ get_possible_moves s ↔ col < 7 ∧ cellAt s.board 0 col = Cell.E := by
  simp [get_possible_moves, List.mem_filter, List.mem_range]

/-- The drop of `make_move` on a column with a blank top cell: the mark
lands in the lowest blank row of the column (rows are scanned 5 down to
0, so this is the largest blank row index), everything else is untouched,
and the stored player flips. -/
theorem place_spec (s : GameState) (col : ℕ) (p : Cell)
    (hE : cellAt s.board 0 col = Cell.E) :
    ∃ r < 6, cellAt s.board r col = Cell.E ∧
      (∀ r', r < r' → r' < 6 → cellAt s.board r' col ≠ Cell.E) ∧
      (place s col p).board = setCell s.board r col p ∧
      (place s col p).player = opp p := by
  simp only [place, placeLoop]
  split_ifs with h5 h4 h3 h2 h1
  · exact ⟨5, by omega, h5, fun r' hgt hlt => by omega, rfl, trivial⟩
  · refine ⟨4, by omega, h4, fun r' hgt hlt => ?_, rfl, trivial⟩
    interval_cases r' <;> assumption
  · refine ⟨3, by omega, h3, fun r' hgt hlt => ?_, rfl, trivial⟩
    interval_cases r' <;> assumption
  · refine ⟨2, by omega, h2, fun r' hgt hlt => ?_, rfl, trivial⟩
    interval_cases r' <;> assumption
  · refine ⟨1, by omega, h1, fun r' hgt hlt => ?_, rfl, trivial⟩
    interval_cases r' <;> assumption
  · refine ⟨0, by omega, hE, fun r' hgt hlt => ?_, rfl, trivial⟩
    interval_cases r' <;> assumption

/-! ### The claimed UCB formula -/

/-- The UCB formula as the specification states it:
`childScore / (childVisits + ε) + sqrt(log(totalSiblingVisits + ε) / (childVisits + ε))`
with `ε = 1e-8` and `totalSiblingVisits` the sum of visit counts over all
children including the candidate. -/
noncomputable def claimedUCB (cs : List Node) (c : Node) : ℝ :=
  c.score / ((c.visits : ℝ) + 1e-8) +
    Real.sqrt (Real.log ((totalVisits cs : ℝ) + 1e-8) / ((c.visits : ℝ) + 1e-8))

/-- The code's UCB key equals the claimed formula.  When some child has
been visited the two expressions are literally the same; when no child
has been visited the code short-circuits the logarithm to `0`, making the
exploration term `sqrt 0 = 0`, while the claimed formula takes the square
root of `log(1e-8)/(v+ε) < 0`, which is also `0`. -/
theorem ucbScore_eq_claimed (cs : List Node) : ucbScore cs = claimedUCB cs := by
  funext c
  unfold ucbScore claimedUCB
  by_cases h : totalVisits cs ≠ 0
  · rw [if_pos h]
  · rw [if_neg h]
    push_neg at h
    rw [h]
    congr 1
    rw [zero_div, Real.sqrt_zero]
    symm
    rw [Real.sqrt_eq_zero']
    apply div_nonpos_iff.mpr
    apply Or.inr
    constructor
    · apply Real.log_nonpos <;> norm_num
    · positivity

/-! ### Window-scan lemmas for `is_terminal` and `evaluate` -/

theorem mem_hWindows (w : List (ℕ × ℕ)) :
    w ∈ hWindows ↔
      ∃ r < 6, ∃ c < 4, (List.range 4).map (fun i => (r, c + i)) = w := by
  simp [hWindows]

theorem mem_vWindows (w : List (ℕ × ℕ)) :
    w ∈ vWindows ↔
      ∃ r < 3, ∃ c < 7, (List.range 4).map (fun i => (r + i, c)) = w := by
  simp [vWindows]

theorem mem_dPosWindows (w : List (ℕ × ℕ)) :
    w ∈ dPosWindows ↔
      ∃ r < 3, ∃ c < 4, (List.range 4).map (fun i => (r + i, c + i)) = w := by
  simp [dPosWindows]

theorem mem_dNegWindows (w : List (ℕ × ℕ)) :
    w ∈ dNegWindows ↔
      ∃ r < 3, ∃ c, 3 ≤ c ∧ c < 7 ∧
        (List.range 4).map (fun i => (r + i, c - i)) = w := by
  simp only [dNegWindows, List.mem_flatMap, List.mem_map, List.mem_range,
    List.mem_range'_1]
  constructor
  · rintro ⟨r, hr, c, ⟨hc3, hc7⟩, hw⟩
    exact ⟨r, hr, c, hc3, by omega, hw⟩
  · rintro ⟨r, hr, c, hc3, hc7, hw⟩
    exact ⟨r, hr, c, ⟨hc3, by omega⟩, hw⟩

theorem mem_allWindows (w : List (ℕ × ℕ)) :
    w ∈ allWindows ↔
      w ∈ hWindows ∨ w ∈ vWindows ∨ w ∈ dPosWindows ∨ w ∈ dNegWindows := by
  simp [allWindows, List.mem_append, or_assoc]

theorem cells_of_map (b : Board) (m : Cell) (g : ℕ → ℕ × ℕ)
    (hcell : ∀ q ∈ (List.range 4).map g, cellAt b q.1 q.2 = m) :
    ∀ i < 4, cellAt b (g i).1 (g i).2 = m := by
  intro i hi
  exact hcell _ (List.mem_map.mpr ⟨i, List.mem_range.mpr hi, rfl⟩)

theorem hasFour_window (b : Board) (m : Cell) :
    hasFour b m ↔ ∃ w ∈ allWindows, w ≠ [] ∧ ∀ q ∈ w, cellAt b q.1 q.2 = m := by
  constructor
  · rintro (⟨r, hr, c, hc, hcell⟩ | ⟨r, hr, c, hc, hcell⟩ |
      ⟨r, hr, c, hc, hcell⟩ | ⟨r, hr, c, hc7, hc3, hcell⟩)
    · refine ⟨(List.range 4).map fun i => (r, c + i), ?_, by simp, ?_⟩
      · exact (mem_allWindows _).mpr
          (Or.inl ((mem_hWindows _).mpr ⟨r, hr, c, hc, rfl⟩))
      · intro q hq
        obtain ⟨i, hi, rfl⟩ := List.mem_map.mp hq
        exact hcell i (List.mem_range.mp hi)
    · refine ⟨(List.range 4).map fun i => (r + i, c), ?_, by simp, ?_⟩
      · exact (mem_allWindows _).mpr
          (Or.inr (Or.inl ((mem_vWindows _).mpr ⟨r, hr, c, hc, rfl⟩)))
      · intro q hq
        obtain ⟨i, hi, rfl⟩ := List.mem_map.mp hq
        exact hcell i (List.mem_range.mp hi)
    · refine ⟨(List.range 4).map fun i => (r + i, c + i), ?_, by simp, ?_⟩
      · exact (mem_allWindows _).mpr
          (Or.inr (Or.inr (Or.inl ((mem_dPosWindows _).mpr ⟨r, hr, c, hc, rfl⟩))))
      · intro q hq
        obtain ⟨i, hi, rfl⟩ := List.mem_map.mp hq
        exact hcell i (List.mem_range.mp hi)
    · refine ⟨(List.range 4).map fun i => (r + i, c - i), ?_, by simp, ?_⟩
      · exact (mem_allWindows _).mpr
          (Or.inr (Or.inr (Or.inr
            ((mem_dNegWindows _).mpr ⟨r, hr, c, hc3, hc7, rfl⟩))))
      · intro q hq
        obtain ⟨i, hi, rfl⟩ := List.mem_map.mp hq
        exact hcell i (List.mem_range.mp hi)
  · rintro ⟨w, hw, _, hcell⟩
    rcases (mem_allWindows w).mp hw with hw1 | hw1 | hw1 | hw1
    · obtain ⟨r, hr, c, hc, hmap⟩ := (mem_hWindows w).mp hw1
      subst hmap
      exact Or.inl ⟨r, hr, c, hc, cells_of_map b m _ hcell⟩
    · obtain ⟨r, hr, c, hc, hmap⟩ := (mem_vWindows w).mp hw1
      subst hmap
      exact Or.inr (Or.inl ⟨r, hr, c, hc, cells_of_map b m _ hcell⟩)
    · obtain ⟨r, hr, c, hc, hmap⟩ := (mem_dPosWindows w).mp hw1
      subst hmap
      exact Or.inr (Or.inr (Or.inl ⟨r, hr, c, hc, cells_of_map b m _ hcell⟩))
    · obtain ⟨r, hr, c, hc3, hc7, hmap⟩ := (mem_dNegWindows w).mp hw1
      subst hmap
      exact Or.inr (Or.inr (Or.inr
        ⟨r, hr, c, hc7, hc3, cells_of_map b m _ hcell⟩))

theorem windowHit_of_all (b : Board) (w : List (ℕ × ℕ)) (m : Cell)
    (hne : w ≠ []) (hm : m ≠ Cell.E) (hcell : ∀ q ∈ w, cellAt b q.1 q.2 = m) :
    windowHit b w = true := by
  cases w with
  | nil => exact absurd rfl hne
  | cons q rest =>
      have hq : cellAt b q.1 q.2 = m := hcell q (by simp)
      rw [windowHit]
      rw [Bool.and_eq_true]
      constructor
      · rw [hq]
        simpa using hm
      · rw [List.all_eq_true]
        intro q' hq'
        rw [decide_eq_true_eq, hq, hcell q' hq']

theorem windowHit_elim (b : Board) (w : List (ℕ × ℕ))
    (h : windowHit b w = true) :
    ∃ q rest, w = q :: rest ∧ cellAt b q.1 q.2 ≠ Cell.E ∧
      ∀ q' ∈ w, cellAt b q'.1 q'.2 = cellAt b q.1 q.2 := by
  cases w with
  | nil => cases h
  | cons q rest =>
      rw [windowHit, Bool.and_eq_true, List.all_eq_true] at h
      refine ⟨q, rest, rfl, by simpa using h.1, ?_⟩
      intro q' hq'
      have := h.2 q' hq'
      rwa [decide_eq_true_eq] at this

theorem cell_ne_E (m : Cell) (h : m ≠ Cell.E) : m = Cell.X ∨ m = Cell.O := by
  cases m
  · exact absurd rfl h
  · exact Or.inl rfl
  · exact Or.inr rfl

/-- If exactly one player has a four-in-a-row, the scans report a win for
that player. -/
theorem evaluate_single_winner (s : GameState) (m : Cell) (hm : m ≠ Cell.E)
    (hX : hasFour s.board m) (hO : ¬ hasFour s.board (opp m)) :
    is_terminal s = true ∧ evaluate s = (if m = Cell.X then 1 else -1) := by
  obtain ⟨w0, hw0mem, hw0ne, hw0cell⟩ := (hasFour_window s.board m).mp hX
  have hw0hit : windowHit s.board w0 = true :=
    windowHit_of_all s.board w0 m hw0ne hm hw0cell
  have hterm : is_terminal s = true := by
    rw [is_terminal, Bool.or_eq_true]
    exact Or.inl (List.any_eq_true.mpr ⟨w0, hw0mem, hw0hit⟩)
  have hsome : (allWindows.find? (windowHit s.board)).isSome := by
    rw [List.find?_isSome]
    exact ⟨w0, hw0mem, hw0hit⟩
  obtain ⟨w, hfind⟩ := Option.isSome_iff_exists.mp hsome
  have hp : windowHit s.board w = true := List.find?_some hfind
  have hmem : w ∈ allWindows := List.mem_of_find?_eq_some hfind
  obtain ⟨q, rest, hwq, hqne, hall⟩ := windowHit_elim _ _ hp
  have hqm : cellAt s.board q.1 q.2 = m := by
    rcases cell_ne_E _ hqne with hqX | hqO <;>
      rcases cell_ne_E _ hm with hmX | hmO
    · rw [hqX, hmX]
    · -- the found window is an X window but the winner is O:
      -- then X also has four, contradicting hO (opp O = X)
      exfalso
      apply hO
      rw [hmO, opp]
      simp only [if_neg (by decide : ¬ (Cell.O = Cell.X))]
      refine (hasFour_window s.board Cell.X).mpr ⟨w, hmem, by rw [hwq]; simp, ?_⟩
      intro q' hq'
      rw [hall q' hq', hqX]
    · exfalso
      apply hO
      rw [hmX, opp]
      simp only [if_pos rfl]
      refine (hasFour_window s.board Cell.O).mpr ⟨w, hmem, by rw [hwq]; simp, ?_⟩
      intro q' hq'
      rw [hall q' hq', hqO]
    · rw [hqO, hmO]
  refine ⟨hterm, ?_⟩
  rw [evaluate, hfind]
  rw [hwq]
  simp only [List.headD_cons, hqm]

/-- With no four-in-a-row on the board at all, `evaluate` returns 0. -/
theorem evaluate_no_four (s : GameState) (hX : ¬ hasFour s.board Cell.X)
    (hO : ¬ hasFour s.board Cell.O) : evaluate s = 0 := by
  cases hfind : allWindows.find? (windowHit s.board) with
  | none => rw [evaluate, hfind]
  | some w =>
      exfalso
      have hp : windowHit s.board w = true := List.find?_some hfind
      have hmem : w ∈ allWindows := List.mem_of_find?_eq_some hfind
      obtain ⟨q, rest, hwq, hqne, hall⟩ := windowHit_elim _ _ hp
      rcases cell_ne_E _ hqne with hq | hq
      · exact hX ((hasFour_window s.board Cell.X).mpr
          ⟨w, hmem, by rw [hwq]; simp, fun q' hq' => by rw [hall q' hq', hq]⟩)
      · exact hO ((hasFour_window s.board Cell.O).mpr
          ⟨w, hmem, by rw [hwq]; simp, fun q' hq' => by rw [hall q' hq', hq]⟩)

/-- A completely full board is terminal (the tie check fires). -/
theorem is_terminal_of_full (s : GameState) (hfull : boardFull s.board) :
    is_terminal s = true := by
  rw [is_terminal, Bool.or_eq_true]
  refine Or.inr ?_
  rw [List.all_eq_true]
  intro col hcol
  rw [decide_eq_true_eq]
  exact hfull 0 (by omega) col (List.mem_range.mp hcol)

/-- On a full column the row loop of `make_move` finds no blank cell and
never `break`s: the board is returned unchanged, only the player flips. -/
theorem place_full (s : GameState) (col : ℕ) (p : Cell)
    (hfull : ∀ r < 6, cellAt s.board r col ≠ Cell.E) :
    place s col p = ⟨s.board, opp p⟩ := by
  unfold place
  congr 1
  simp only [placeLoop]
  rw [if_neg (hfull 5 (by omega)), if_neg (hfull 4 (by omega)),
    if_neg (hfull 3 (by omega)), if_neg (hfull 2 (by omega)),
    if_neg (hfull 1 (by omega)), if_neg (hfull 0 (by omega))]

/-! ### Claim theorems -/

/-- C1 (amended): no `IllegalMoveError` exists in the source.  A
`make_move` on an in-range full column returns normally with the grid
unchanged and only the player flipped (the drop loop finds no blank cell
and never `break`s), `possibleMoves()` excludes the full column, and an
out-of-range column raises `IndexError` (modelled as `none`), not an
`IllegalMoveError`. -/
theorem make_move_full_no_error (s : GameState) (col : ℕ) (p : Cell)
    (hcol : col < 7) (hfull : ∀ r < 6, cellAt s.board r col ≠ Cell.E) :
    make_move s col p = some ⟨s.board, opp p⟩ ∧
    col ∉ get_possible_moves s ∧
    ∀ c', 7 ≤ c' → make_move s c' p = none := by
  refine ⟨?_, ?_, ?_⟩
  · rw [make_move, if_pos hcol, place_full s col p hfull]
  · intro hmem
    exact hfull 0 (by omega) ((mem_possible_moves s col).mp hmem).2
  · intro c' hc'
    rw [make_move, if_neg (by omega)]

/-- The state with column 0 completely full (alternating marks, no
four-in-a-row) and all other columns empty. -/
def fullColS : GameState :=
  ⟨[[Cell.X, Cell.E, Cell.E, Cell.E, Cell.E, Cell.E, Cell.E],
    [Cell.O, Cell.E, Cell.E, Cell.E, Cell.E, Cell.E, Cell.E],
    [Cell.X, Cell.E, Cell.E, Cell.E, Cell.E, Cell.E, Cell.E],
    [Cell.O, Cell.E, Cell.E, Cell.E, Cell.E, Cell.E, Cell.E],
    [Cell.X, Cell.E, Cell.E, Cell.E, Cell.E, Cell.E, Cell.E],
    [Cell.O, Cell.E, Cell.E, Cell.E, Cell.E, Cell.E, Cell.E]], Cell.X⟩

/-- C1 (counterexample): on the concrete state whose column 0 is full,
`make_move(0, 'X')` does not raise anything — it returns a state with the
identical grid — contradicting the claim that it raises
`IllegalMoveError`.  (The column is also correctly absent from
`get_possible_moves`.) -/
theorem make_move_full_no_error_counterexample :
    (∀ r < 6, cellAt fullColS.board r 0 ≠ Cell.E) ∧
    make_move fullColS 0 Cell.X ≠ none ∧
    make_move fullColS 0 Cell.X = some ⟨fullColS.board, Cell.O⟩ ∧
    0 ∉ get_possible_moves fullColS := by
  refine ⟨by decide, by decide, by decide, by decide⟩

/-- C1 (witness for the amended claim). -/
theorem make_move_full_no_error_witness :
    (0 < 7 ∧ ∀ r < 6, cellAt fullColS.board r 0 ≠ Cell.E) ∧
    (make_move fullColS 0 Cell.X = some ⟨fullColS.board, opp Cell.X⟩ ∧
      0 ∉ get_possible_moves fullColS ∧
      ∀ c', 7 ≤ c' → make_move fullColS c' Cell.X = none) :=
  ⟨⟨by decide, by decide⟩,
    make_move_full_no_error fullColS 0 Cell.X (by decide) (by decide)⟩

/-- C10: on an in-range full column `make_move` raises nothing and
returns a new state whose grid is cell-for-cell identical to the
receiver's, with only the player-to-move flipped; the receiver itself is
a value and is unchanged by construction. -/
theorem make_move_full_frame (s : GameState) (col : ℕ) (p : Cell)
    (hcol : col < 7) (hfull : ∀ r < 6, cellAt s.board r col ≠ Cell.E) :
    ∃ s', make_move s col p = some s' ∧ s'.board = s.board ∧
      s'.player = opp p ∧
      ∀ r c, cellAt s'.board r c = cellAt s.board r c := by
  refine ⟨⟨s.board, opp p⟩, ?_, rfl, rfl, fun r c => rfl⟩
  rw [make_move, if_pos hcol, place_full s col p hfull]

/-- C10 (witness). -/
theorem make_move_full_frame_witness :
    (0 < 7 ∧ ∀ r < 6, cellAt fullColS.board r 0 ≠ Cell.E) ∧
    (∃ s', make_move fullColS 0 Cell.O = some s' ∧
      s'.board = fullColS.board ∧ s'.player = opp Cell.O ∧
      ∀ r c, cellAt s'.board r c = cellAt fullColS.board r c) :=
  ⟨⟨by decide, by decide⟩,
    make_move_full_frame fullColS 0 Cell.O (by decide) (by decide)⟩

/-- C7: applying a legal move (a column listed by `possibleMoves()`)
returns a new state equal to the receiver except that the player's mark
occupies the lowest previously-blank row of that column, with the turn
passed to the opponent; every other cell is unchanged (and the receiver,
being a value, is not modified). -/
theorem make_move_legal (s : GameState) (col : ℕ) (p : Cell) (hwf : WF s)
    (hm : col ∈ get_possible_moves s) :
    ∃ s', make_move s col p = some s' ∧ s'.player = opp p ∧
      ∃ r < 6, cellAt s.board r col = Cell.E ∧
        (∀ r', r < r' → r' < 6 → cellAt s.board r' col ≠ Cell.E) ∧
        cellAt s'.board r col = p ∧
        (∀ r' c', r' ≠ r ∨ c' ≠ col →
          cellAt s'.board r' c' = cellAt s.board r' c') := by
  obtain ⟨hcol, hE⟩ := (mem_possible_moves s col).mp hm
  obtain ⟨r, hr6, hrE, habove, hboard, hplayer⟩ := place_spec s col p hE
  refine ⟨place s col p, ?_, hplayer, r, hr6, hrE, habove, ?_, ?_⟩
  · rw [make_move, if_pos hcol]
  · rw [hboard]
    apply cellAt_setCell_self
    · rw [hwf.1]
      exact hr6
    · have hrow : s.board.getD r [] ∈ s.board :=
        getD_mem _ _ _ (by rw [hwf.1]; exact hr6)
      rw [hwf.2 _ hrow]
      exact hcol
  · intro r' c' hne
    rw [hboard]
    exact cellAt_setCell_ne _ _ _ _ _ _ hne

/-- C7 (witness): dropping into column 3 of the empty board. -/
theorem make_move_legal_witness :
    (WF initState ∧ 3 ∈ get_possible_moves initState) ∧
    (∃ s', make_move initState 3 Cell.X = some s' ∧
      s'.player = opp Cell.X ∧
      ∃ r < 6, cellAt initState.board r 3 = Cell.E ∧
        (∀ r', r < r' → r' < 6 → cellAt initState.board r' 3 ≠ Cell.E) ∧
        cellAt s'.board r 3 = Cell.X ∧
        (∀ r' c', r' ≠ r ∨ c' ≠ 3 →
          cellAt s'.board r' c' = cellAt initState.board r' c')) :=
  ⟨⟨by decide, by decide⟩,
    make_move_legal initState 3 Cell.X (by decide) (by decide)⟩

/-- C2: `select_child` returns the child maximizing the claimed UCB
formula (exploitation plus exploration term with ε = 1e-8 and
`totalSiblingVisits` summed over all children, candidate included); among
several maximizers, the first in child order is returned. -/
theorem select_child_ucb (n : Node) (h : n.children ≠ []) :
    ∃ i, i < n.children.length ∧
      n.select_child = some (n.children.getD i default) ∧
      (∀ j, j < n.children.length →
        claimedUCB n.children (n.children.getD j default)
          ≤ claimedUCB n.children (n.children.getD i default)) ∧
      (∀ j, j < i →
        claimedUCB n.children (n.children.getD j default)
          < claimedUCB n.children (n.children.getD i default)) := by
  refine ⟨idxOfMax (claimedUCB n.children) n.children, idxOfMax_lt _ _ h,
    ?_, ?_, ?_⟩
  · rw [Node.select_child, pyMax_eq _ _ h, ucbScore_eq_claimed]
  · intro j hj
    exact idxOfMax_le _ _ _ _ hj
  · intro j hj
    exact idxOfMax_first _ _ _ _ hj

/-- A concrete two-child node with distinct visit statistics. -/
def twoChildNode : Node :=
  Node.mk initState Cell.X
    [Node.mk initState Cell.O [] 1 0, Node.mk initState Cell.O [] 2 1] 3 1

/-- C2 (witness). -/
theorem select_child_ucb_witness :
    twoChildNode.children ≠ [] ∧
    ∃ i, i < twoChildNode.children.length ∧
      twoChildNode.select_child = some (twoChildNode.children.getD i default) ∧
      (∀ j, j < twoChildNode.children.length →
        claimedUCB twoChildNode.children (twoChildNode.children.getD j default)
          ≤ claimedUCB twoChildNode.children
              (twoChildNode.children.getD i default)) ∧
      (∀ j, j < i →
        claimedUCB twoChildNode.children (twoChildNode.children.getD j default)
          < claimedUCB twoChildNode.children
              (twoChildNode.children.getD i default)) :=
  ⟨by simp [twoChildNode, Node.children],
    select_child_ucb twoChildNode (by simp [twoChildNode, Node.children])⟩

theorem backpropagate_length (s : ℝ) :
    ∀ chain : List Node, (backpropagate s chain).length = chain.length
  | [] => rfl
  | n :: rest => by
      simp only [backpropagate, List.length_cons,
        backpropagate_length (-s) rest]

/-- C4: `backpropagate(s)` along the ancestor chain
`[node, parent, grandparent, …]` adds exactly one visit to every link of
the chain and adds `(-1)^i * s` to the score of the `i`-th link: `s` at
the node itself, `-s` at its parent, `s` again at the grandparent, and so
on — the zero-sum sign flip of the recursive call with `-score`.  States,
players and child lists are untouched. -/
theorem backpropagate_chain :
    ∀ (s : ℝ) (chain : List Node) (i : ℕ), i < chain.length →
      (backpropagate s chain).length = chain.length ∧
      ((backpropagate s chain).getD i default).visits
          = (chain.getD i default).visits + 1 ∧
      ((backpropagate s chain).getD i default).score
          = (chain.getD i default).score + (-1) ^ i * s ∧
      ((backpropagate s chain).getD i default).state
          = (chain.getD i default).state ∧
      ((backpropagate s chain).getD i default).player
          = (chain.getD i default).player ∧
      ((backpropagate s chain).getD i default).children
          = (chain.getD i default).children
  | s, n :: rest, 0, _ => by
      refine ⟨backpropagate_length s (n :: rest), ?_, ?_, ?_, ?_, ?_⟩ <;>
        simp [backpropagate, bump_visits, bump_score, bump_state,
          bump_player, bump_children]
  | s, n :: rest, i + 1, h => by
      obtain ⟨hl, hv, hs, hst, hpl, hch⟩ :=
        backpropagate_chain (-s) rest i (by simpa using h)
      refine ⟨backpropagate_length s (n :: rest), ?_, ?_, ?_, ?_, ?_⟩ <;>
        simp only [backpropagate, List.getD_cons_succ]
      · exact hv
      · rw [hs]
        ring
      · exact hst
      · exact hpl
      · exact hch

/-- C4 (witness): a three-link chain with `s = 1`. -/
theorem backpropagate_chain_witness :
    (1 : ℕ) < 3 ∧
    ((backpropagate 1 [Node.mk initState Cell.X [] 0 0,
        Node.mk initState Cell.O [] 5 2,
        Node.mk initState Cell.X [] 7 3]).length = 3 ∧
      ((backpropagate 1 [Node.mk initState Cell.X [] 0 0,
        Node.mk initState Cell.O [] 5 2,
        Node.mk initState Cell.X [] 7 3]).getD 1 default).visits
          = (([Node.mk initState Cell.X [] 0 0,
        Node.mk initState Cell.O [] 5 2,
        Node.mk initState Cell.X [] 7 3] : List Node).getD 1 default).visits + 1 ∧
      ((backpropagate 1 [Node.mk initState Cell.X [] 0 0,
        Node.mk initState Cell.O [] 5 2,
        Node.mk initState Cell.X [] 7 3]).getD 1 default).score
          = (([Node.mk initState Cell.X [] 0 0,
        Node.mk initState Cell.O [] 5 2,
        Node.mk initState Cell.X [] 7 3] : List Node).getD 1 default).score
              + (-1) ^ 1 * 1 ∧
      ((backpropagate 1 [Node.mk initState Cell.X [] 0 0,
        Node.mk initState Cell.O [] 5 2,
        Node.mk initState Cell.X [] 7 3]).getD 1 default).state
          = (([Node.mk initState Cell.X [] 0 0,
        Node.mk initState Cell.O [] 5 2,
        Node.mk initState Cell.X [] 7 3] : List Node).getD 1 default).state ∧
      ((backpropagate 1 [Node.mk initState Cell.X [] 0 0,
        Node.mk initState Cell.O [] 5 2,
        Node.mk initState Cell.X [] 7 3]).getD 1 default).player
          = (([Node.mk initState Cell.X [] 0 0,
        Node.mk initState Cell.O [] 5 2,
        Node.mk initState Cell.X [] 7 3] : List Node).getD 1 default).player ∧
      ((backpropagate 1 [Node.mk initState Cell.X [] 0 0,
        Node.mk initState Cell.O [] 5 2,
        Node.mk initState Cell.X [] 7 3]).getD 1 default).children
          = (([Node.mk initState Cell.X [] 0 0,
        Node.mk initState Cell.O [] 5 2,
        Node.mk initState Cell.X [] 7 3] : List Node).getD 1 default).children) :=
  ⟨by decide,
    backpropagate_chain 1 [Node.mk initState Cell.X [] 0 0,
      Node.mk initState Cell.O [] 5 2,
      Node.mk initState Cell.X [] 7 3] 1 (by decide)⟩

theorem moves_nodup (s : GameState) : (get_possible_moves s).Nodup :=
  (List.nodup_range 7).filter _

theorem nodup_getD_ne {α : Type} (l : List α) (d : α) (h : l.Nodup)
    {i j : ℕ} (hi : i < l.length) (hj : j < l.length) (hij : i ≠ j) :
    l.getD i d ≠ l.getD j d := by
  rw [List.getD_eq_get _ _ hi, List.getD_eq_get _ _ hj]
  intro heq
  have := (List.Nodup.get_inj_iff h).mp heq
  exact hij (by simpa using congrArg Fin.val this)

/-- The states produced by two distinct legal moves differ: each board
holds the dropped mark in a cell of its own column that the other board
leaves blank. -/
theorem place_ne_of_move_ne (s : GameState) (p : Cell) (hwf : WF s)
    (hp : p ≠ Cell.E) (mi mj : ℕ)
    (hmi : mi ∈ get_possible_moves s) (hmj : mj ∈ get_possible_moves s)
    (hne : mi ≠ mj) : place s mi p ≠ place s mj p := by
  obtain ⟨hcoli, hEi⟩ := (mem_possible_moves s mi).mp hmi
  obtain ⟨hcolj, hEj⟩ := (mem_possible_moves s mj).mp hmj
  obtain ⟨ri, hri, _, _, hbi, _⟩ := place_spec s mi p hEi
  obtain ⟨rj, hrj, hrjE, _, hbj, _⟩ := place_spec s mj p hEj
  intro heq
  have hcells : cellAt (place s mi p).board rj mj
      = cellAt (place s mj p).board rj mj := by rw [heq]
  rw [hbi, hbj] at hcells
  rw [cellAt_setCell_ne _ _ _ _ _ _ (Or.inr (Ne.symm hne))] at hcells
  rw [cellAt_setCell_self] at hcells
  · exact hp (hrjE ▸ hcells.symm ▸ rfl)
  · rw [hwf.1]
    exact hrj
  · have hrow : s.board.getD rj [] ∈ s.board :=
      getD_mem _ _ _ (by rw [hwf.1]; exact hrj)
    rw [hwf.2 _ hrow]
    exact hcolj

/-- C5: `expand` on a childless node produces exactly one child per legal
move, in `possibleMoves()` order, with no duplicates and no omissions;
each child's state is the result of applying its move under the node's
player, each child's player is the opponent, and each child starts with
no children, zero visits and zero score.  (The Python parent pointer is
represented implicitly: every produced child sits in the expanded node's
child list.) -/
theorem expand_spec (n : Node) (hwf : WF n.state) (hch : n.children = [])
    (hterm : is_terminal n.state = false) (hp : n.player ≠ Cell.E) :
    n.expand = (get_possible_moves n.state).map
        (fun m => Node.mk (place n.state m n.player) (opp n.player) [] 0 0) ∧
    n.expand.length = (get_possible_moves n.state).length ∧
    (∀ i, i < (get_possible_moves n.state).length →
      (n.expand.getD i default).state
          = place n.state ((get_possible_moves n.state).getD i 0) n.player ∧
      (n.expand.getD i default).player = opp n.player ∧
      (n.expand.getD i default).children = [] ∧
      (n.expand.getD i default).visits = 0 ∧
      (n.expand.getD i default).score = 0) ∧
    (∀ i j, i < j → j < (get_possible_moves n.state).length →
      (n.expand.getD i default).state ≠ (n.expand.getD j default).state) := by
  have hex : n.expand = (get_possible_moves n.state).map
      (fun m => Node.mk (place n.state m n.player) (opp n.player) [] 0 0) := by
    rw [Node.expand, expandList, hch, List.nil_append]
  have hgd : ∀ i, i < (get_possible_moves n.state).length →
      n.expand.getD i default
        = Node.mk (place n.state ((get_possible_moves n.state).getD i 0) n.player)
            (opp n.player) [] 0 0 := by
    intro i hi
    rw [hex]
    rw [getD_irrel default
      (Node.mk (place n.state 0 n.player) (opp n.player) [] 0 0) _ _
      (by rw [List.length_map]; exact hi)]
    exact getD_map _ 0 _ i hi
  refine ⟨hex, by rw [hex, List.length_map], ?_, ?_⟩
  · intro i hi
    rw [hgd i hi]
    exact ⟨rfl, rfl, rfl, rfl, rfl⟩
  · intro i j hij hj
    rw [hgd i (by omega), hgd j hj]
    simp only [Node.state]
    intro heq
    exact place_ne_of_move_ne n.state n.player hwf hp _ _
      (getD_mem _ _ _ (by omega)) (getD_mem _ _ _ hj)
      (nodup_getD_ne _ 0 (moves_nodup n.state) (by omega) hj (by omega)) heq

/-- C5 (witness): expanding a fresh root on the empty board. -/
theorem expand_spec_witness :
    (WF initState ∧
      (Node.mk initState Cell.X [] 0 0).children = [] ∧
      is_terminal initState = false ∧ Cell.X ≠ Cell.E) ∧
    ((Node.mk initState Cell.X [] 0 0).expand
        = (get_possible_moves initState).map
            (fun m => Node.mk (place initState m Cell.X) (opp Cell.X) [] 0 0) ∧
      (Node.mk initState Cell.X [] 0 0).expand.length
        = (get_possible_moves initState).length ∧
      (∀ i, i < (get_possible_moves initState).length →
        ((Node.mk initState Cell.X [] 0 0).expand.getD i default).state
            = place initState ((get_possible_moves initState).getD i 0) Cell.X ∧
        ((Node.mk initState Cell.X [] 0 0).expand.getD i default).player
            = opp Cell.X ∧
        ((Node.mk initState Cell.X [] 0 0).expand.getD i default).children = [] ∧
        ((Node.mk initState Cell.X [] 0 0).expand.getD i default).visits = 0 ∧
        ((Node.mk initState Cell.X [] 0 0).expand.getD i default).score = 0) ∧
      (∀ i j, i < j → j < (get_possible_moves initState).length →
        ((Node.mk initState Cell.X [] 0 0).expand.getD i default).state
          ≠ ((Node.mk initState Cell.X [] 0 0).expand.getD j default).state)) :=
  ⟨⟨by decide, rfl, by decide, by decide⟩,
    expand_spec (Node.mk initState Cell.X [] 0 0) (by decide) rfl
      (by decide) (by decide)⟩

/-- C6 (amended): a board on which exactly one player has four aligned
marks is terminal and `evaluate` reports +1 for `'X'`, -1 for `'O'`; a
completely filled board is terminal; and `evaluate` returns 0 on every
board with no four-in-a-row at all, terminal or not.  (When both players
simultaneously have four-in-a-rows — impossible in real play — `evaluate`
reports the first line in scan order, see the counterexample.) -/
theorem is_terminal_evaluate_spec (s : GameState) :
    (hasFour s.board Cell.X → ¬ hasFour s.board Cell.O →
      is_terminal s = true ∧ evaluate s = 1) ∧
    (hasFour s.board Cell.O → ¬ hasFour s.board Cell.X →
      is_terminal s = true ∧ evaluate s = -1) ∧
    (boardFull s.board → is_terminal s = true) ∧
    (¬ hasFour s.board Cell.X → ¬ hasFour s.board Cell.O →
      evaluate s = 0) := by
  refine ⟨?_, ?_, fun hf => is_terminal_of_full s hf,
    fun hX hO => evaluate_no_four s hX hO⟩
  · intro hX hO
    have h := evaluate_single_winner s Cell.X (by decide) hX
      (by simpa [opp] using hO)
    simpa using h
  · intro hO hX
    have h := evaluate_single_winner s Cell.O (by decide) hO
      (by simpa [opp] using hX)
    simpa using h

/-- Bottom row holds `'X'` at columns 0–3 (spec scenario 3). -/
def bottomXS : GameState :=
  ⟨[[Cell.E, Cell.E, Cell.E, Cell.E, Cell.E, Cell.E, Cell.E],
    [Cell.E, Cell.E, Cell.E, Cell.E, Cell.E, Cell.E, Cell.E],
    [Cell.E, Cell.E, Cell.E, Cell.E, Cell.E, Cell.E, Cell.E],
    [Cell.E, Cell.E, Cell.E, Cell.E, Cell.E, Cell.E, Cell.E],
    [Cell.E, Cell.E, Cell.E, Cell.E, Cell.E, Cell.E, Cell.E],
    [Cell.X, Cell.X, Cell.X, Cell.X, Cell.E, Cell.E, Cell.E]], Cell.O⟩

/-- A completely filled board with no four-in-a-row (a draw). -/
def drawS : GameState :=
  ⟨[[Cell.O, Cell.O, Cell.O, Cell.X, Cell.O, Cell.O, Cell.O],
    [Cell.X, Cell.X, Cell.X, Cell.O, Cell.X, Cell.X, Cell.X],
    [Cell.O, Cell.O, Cell.O, Cell.X, Cell.O, Cell.O, Cell.O],
    [Cell.X, Cell.X, Cell.X, Cell.O, Cell.X, Cell.X, Cell.X],
    [Cell.O, Cell.O, Cell.O, Cell.X, Cell.O, Cell.O, Cell.O],
    [Cell.X, Cell.X, Cell.X, Cell.O, Cell.X, Cell.X, Cell.X]], Cell.X⟩

/-- C6 (witness): the win conjunct on the bottom-row `'X'` board and the
draw conjuncts on the full drawn board. -/
theorem is_terminal_evaluate_spec_witness :
    (hasFour bottomXS.board Cell.X ∧ ¬ hasFour bottomXS.board Cell.O) ∧
    (is_terminal bottomXS = true ∧ evaluate bottomXS = 1) ∧
    (boardFull drawS.board ∧ ¬ hasFour drawS.board Cell.X ∧
      ¬ hasFour drawS.board Cell.O) ∧
    is_terminal drawS = true ∧ evaluate drawS = 0 :=
  ⟨⟨by decide, by decide⟩,
    (is_terminal_evaluate_spec bottomXS).1 (by decide) (by decide),
    ⟨by decide, by decide, by decide⟩,
    (is_terminal_evaluate_spec drawS).2.2.1 (by decide),
    (is_terminal_evaluate_spec drawS).2.2.2 (by decide) (by decide)⟩

/-- A (gravity-respecting) board on which both players have a
four-in-a-row: `'X'` horizontally on the bottom row, `'O'` vertically in
column 6. -/
def doubleWinS : GameState :=
  ⟨[[Cell.E, Cell.E, Cell.E, Cell.E, Cell.E, Cell.E, Cell.E],
    [Cell.E, Cell.E, Cell.E, Cell.E, Cell.E, Cell.E, Cell.E],
    [Cell.E, Cell.E, Cell.E, Cell.E, Cell.E, Cell.E, Cell.O],
    [Cell.E, Cell.E, Cell.E, Cell.E, Cell.E, Cell.E, Cell.O],
    [Cell.E, Cell.E, Cell.E, Cell.E, Cell.E, Cell.E, Cell.O],
    [Cell.X, Cell.X, Cell.X, Cell.X, Cell.E, Cell.E, Cell.O]], Cell.X⟩

/-- C6 (counterexample): this board contains four contiguously aligned
`'O'` marks, yet `evaluate` returns `1`, not `-1` — the claim's "-1 if
the marks belong to PlayerB" fails when the other player also has a line
that is reached earlier in scan order. -/
theorem is_terminal_evaluate_spec_counterexample :
    hasFour doubleWinS.board Cell.O ∧ evaluate doubleWinS ≠ -1 ∧
    evaluate doubleWinS = 1 :=
  ⟨by decide, by decide, by decide⟩

/-- C3 (amended): for a non-terminal root the iteration loop always
completes and the sum of the visit counts over the root's immediate
children *increases* by exactly `N` — every iteration descends past the
root and backpropagation credits exactly one immediate child.  For a root
whose children all start at zero visits (in particular a fresh root) the
sum therefore equals `N`. -/
theorem mcts_visit_conservation (n : Node) (N : ℕ) (r : Rng)
    (h : is_terminal n.state = false) :
    ∃ n' r', mctsLoop n N r = some (n', r') ∧
      totalVisits n'.children = totalVisits n.children + N := by
  obtain ⟨n', r', hloop, _, _, htv, _, _, _⟩ := mctsLoop_runs N n r h
  exact ⟨n', r', hloop, htv⟩

/-- C3 (witness): three iterations on a fresh empty-board root. -/
theorem mcts_visit_conservation_witness :
    is_terminal (Node.mk initState Cell.X [] 0 0).state = false ∧
    ∃ n' r', mctsLoop (Node.mk initState Cell.X [] 0 0) 3 [0, 1, 2] = some (n', r') ∧
      totalVisits n'.children
        = totalVisits (Node.mk initState Cell.X [] 0 0).children + 3 :=
  ⟨by decide,
    mcts_visit_conservation (Node.mk initState Cell.X [] 0 0) 3 [0, 1, 2]
      (by decide)⟩

/-- A non-terminal root whose single child already carries one visit
(as after a persisted earlier run). -/
def preVisitedRoot : Node :=
  Node.mk initState Cell.X [Node.mk initState Cell.O [] 1 0] 0 0

/-- C3 (counterexample): on a non-terminal root whose children already
carry visits, `run(root, N)` leaves the child visit sum at its prior
value plus `N`, not at `N`: here `N = 0` and the sum is `1 ≠ 0`.  The
claimed equality "sum equals exactly `N`" only holds when the children
start with zero visits. -/
theorem mcts_visit_conservation_counterexample :
    is_terminal preVisitedRoot.state = false ∧
    mctsLoop preVisitedRoot 0 [] = some (preVisitedRoot, []) ∧
    totalVisits preVisitedRoot.children = 1 ∧ (1 : ℕ) ≠ 0 :=
  ⟨by decide, rfl, rfl, by decide⟩

/-- C8: for a non-terminal root and `N ≥ 1`, `mcts` completes and returns
the child of the (updated) root with the greatest visit count, resolving
ties to the first such child in child order; on a fresh root every child
— the returned one included — is the successor of one of the root's
legal moves, which all lie in columns 0–6. -/
theorem mcts_robust_child (n : Node) (N : ℕ) (r : Rng) (hN : 1 ≤ N)
    (h : is_terminal n.state = false) :
    ∃ n' r', mctsLoop n N r = some (n', r') ∧
      ∃ i, i < n'.children.length ∧
        mcts n N r = some (n'.children.getD i default) ∧
        (∀ j, j < n'.children.length →
          (n'.children.getD j default).visits
            ≤ (n'.children.getD i default).visits) ∧
        (∀ j, j < i →
          (n'.children.getD j default).visits
            < (n'.children.getD i default).visits) ∧
        (n.children = [] → ∃ m ∈ get_possible_moves n.state, m < 7 ∧
          (n'.children.getD i default).state = place n.state m n.player) := by
  obtain ⟨n', r', hloop, hst, hpl, htv, hne, hpres, hexp⟩ := mctsLoop_runs N n r h
  have hne' : n'.children ≠ [] := hne (Or.inr hN)
  have hilen : idxOfMax Node.visits n'.children < n'.children.length :=
    idxOfMax_lt _ _ hne'
  refine ⟨n', r', hloop, idxOfMax Node.visits n'.children, hilen, ?_, ?_, ?_, ?_⟩
  · rw [mcts, hloop]
    exact pyMax_eq _ _ hne'
  · intro j hj
    exact idxOfMax_le _ _ _ _ hj
  · intro j hj
    exact idxOfMax_first _ _ _ _ hj
  · intro hnil
    have hmap := hexp hN hnil
    have hmlen : (get_possible_moves n.state).length = n'.children.length := by
      have hlen := congrArg List.length hmap
      simpa using hlen.symm
    refine ⟨(get_possible_moves n.state).getD (idxOfMax Node.visits n'.children) 0,
      getD_mem _ _ _ (by omega), ?_, ?_⟩
    · exact ((mem_possible_moves n.state _).mp
        (getD_mem 0 _ _ (by omega))).1
    · calc Node.state (n'.children.getD (idxOfMax Node.visits n'.children) default)
          = (n'.children.map Node.state).getD (idxOfMax Node.visits n'.children)
              (Node.state default) :=
            (getD_map Node.state default _ _ hilen).symm
        _ = (n'.children.map Node.state).getD (idxOfMax Node.visits n'.children)
              (place n.state 0 n.player) :=
            getD_irrel _ _ _ _ (by rw [List.length_map]; exact hilen)
        _ = ((get_possible_moves n.state).map
              (fun m => place n.state m n.player)).getD
              (idxOfMax Node.visits n'.children) (place n.state 0 n.player) := by
            rw [hmap]
        _ = place n.state
              ((get_possible_moves n.state).getD (idxOfMax Node.visits n'.children) 0)
              n.player :=
            getD_map _ 0 _ _ (by omega)

/-- C8 (witness): one iteration on a fresh empty-board root. -/
theorem mcts_robust_child_witness :
    (1 ≤ 1 ∧ is_terminal (Node.mk initState Cell.X [] 0 0).state = false) ∧
    (∃ n' r', mctsLoop (Node.mk initState Cell.X [] 0 0) 1 [5] = some (n', r') ∧
      ∃ i, i < n'.children.length ∧
        mcts (Node.mk initState Cell.X [] 0 0) 1 [5]
          = some (n'.children.getD i default) ∧
        (∀ j, j < n'.children.length →
          (n'.children.getD j default).visits
            ≤ (n'.children.getD i default).visits) ∧
        (∀ j, j < i →
          (n'.children.getD j default).visits
            < (n'.children.getD i default).visits) ∧
        ((Node.mk initState Cell.X [] 0 0).children = [] →
          ∃ m ∈ get_possible_moves initState, m < 7 ∧
            (n'.children.getD i default).state = place initState m Cell.X)) :=
  ⟨⟨by decide, by decide⟩,
    mcts_robust_child (Node.mk initState Cell.X [] 0 0) 1 [5]
      (by decide) (by decide)⟩

/-- C9: on a terminal root with no children, `mcts` never returns
normally: no iteration expands the root or adds a child (the child list
stays empty), and the final `max(root.children, ...)` is applied to an
empty sequence — Python's `ValueError`, modelled by `none`. -/
theorem mcts_terminal_root (n : Node) (N : ℕ) (r : Rng)
    (hterm : is_terminal n.state = true) (hch : n.children = []) :
    ∃ n' r', mctsLoop n N r = some (n', r') ∧ n'.children = [] ∧
      n'.state = n.state ∧ mcts n N r = none := by
  obtain ⟨n', r', hloop, hst, hch', _⟩ := mctsLoop_term N n r hterm
  have hempty : n'.children = [] := by rw [hch', hch]
  refine ⟨n', r', hloop, hempty, hst, ?_⟩
  rw [mcts, hloop]
  show pyMax Node.visits n'.children = none
  rw [hempty]
  rfl

/-- C9 (witness): a terminal root (bottom-row `'X'` win) with two
iterations. -/
theorem mcts_terminal_root_witness :
    (is_terminal (Node.mk bottomXS Cell.O [] 0 0).state = true ∧
      (Node.mk bottomXS Cell.O [] 0 0).children = []) ∧
    (∃ n' r', mctsLoop (Node.mk bottomXS Cell.O [] 0 0) 2 [] = some (n', r') ∧
      n'.children = [] ∧ n'.state = (Node.mk bottomXS Cell.O [] 0 0).state ∧
      mcts (Node.mk bottomXS Cell.O [] 0 0) 2 [] = none) :=
  ⟨⟨by decide, rfl⟩,
    mcts_terminal_root (Node.mk bottomXS Cell.O [] 0 0) 2 []
      (by decide) rfl⟩

end Connect4
